import Mathlib

/-!
Verification of the SmartPdfRename pipeline (a batch PDF-invoice renamer).

The development shallowly embeds the pure parts of the code
(`src/utils/pdfProcessor.ts`, the JSON fence-stripper of the AI service,
and the `processFiles` batch loop plus the storage-commit block of
`src/App.tsx`) as executable Lean functions over `List Char` (JavaScript
strings are modelled by their character lists).  Host effects (the PDF
rasterizer plus the network extraction call, and the success of a
filesystem write) are modelled by an explicit environment, exactly at the
points where the code awaits them.

Modelling notes kept throughout:
  * JavaScript `String.prototype.replace(/lit/g, rep)` on the literal
    patterns used by the code is replace-all, scanning left to right
    without overlap; the `$`-escape conventions of JS replacement strings
    are not modelled (no claim mentions them).
  * A JS `number` is consumed by the code only through `toString()`, so it
    is modelled by the structure `JSNumber` carrying that rendering
    (floating-point formatting itself is outside the embedding).
  * Scanning functions are written with explicit fuel so that the kernel
    can evaluate them on concrete inputs; a fuel-irrelevance lemma recovers
    the intended recursion equations.
-/

/-- The `\x7b` character (JS template placeholders open with it). -/
def lbrace : Char := '\x7b'

/-- The `\x7d` character (JS template placeholders close with it). -/
def rbrace : Char := '\x7d'

/-- The backtick character, used by the Markdown code fences the AI
service strips. -/
def btick : Char := "`".data.headD 'A'

/-- Characters of the filesystem-reserved set replaced by
`sanitizeFilename` (`src/utils/pdfProcessor.ts`, the regex
`[<>:"/\\|?*]`). -/
def isReservedChar (c : Char) : Bool :=
  c = '<' || c = '>' || c = ':' || c = '"' || c = '/' || c = '\\' ||
  c = '|' || c = '?' || c = '*'

/-- One character step of the sanitizer: a reserved character becomes
`_`, anything else is kept. -/
def replaceReservedChar (c : Char) : Char :=
  if isReservedChar c then '_' else c

/-- Whitespace predicate modelling `String.prototype.trim`. -/
def wsChar (c : Char) : Bool := c.isWhitespace

/-- Both-ends trim, modelling JS `trim()`: drop leading whitespace, then
drop trailing whitespace (via reversal). -/
def trimL (s : List Char) : List Char :=
  (((s.dropWhile wsChar).reverse.dropWhile wsChar)).reverse

/-- `sanitizeFilename` of `src/utils/pdfProcessor.ts`:
`name.replace(/[<>:"/\\|?*]/g, '_').trim()`. -/
def sanitizeFilename (s : List Char) : List Char :=
  trimL (s.map replaceReservedChar)

/-- Fuel-driven core of JS `replace(/pat/g, rep)` for a non-empty literal
pattern `p :: ps`: scan left to right, replace each (non-overlapping)
occurrence by `rep`. -/
def replaceAllGo (p : Char) (ps rep : List Char) : Nat → List Char → List Char
  | 0, s => s
  | _ + 1, [] => []
  | fuel + 1, c :: rest =>
    if (p :: ps).isPrefixOf (c :: rest) then
      rep ++ replaceAllGo p ps rep fuel (rest.drop ps.length)
    else
      c :: replaceAllGo p ps rep fuel rest

/-- JS `String.prototype.replace(/pat/g, rep)` for a literal pattern. -/
def replaceAll (pat rep s : List Char) : List Char :=
  match pat with
  | [] => s
  | p :: ps => replaceAllGo p ps rep s.length s

/-- The rendering of a JS `number` through `toString()`; the code reads
`amount` only through this observation. -/
structure JSNumber where
  render : List Char
  deriving DecidableEq

/-- `ExtractedInfo` of `src/types.ts`: the six structured invoice fields
returned by an extraction provider. -/
structure ExtractedInfo where
  date : List Char
  merchant : List Char
  invoice : List Char
  month : List Char
  amount : JSNumber
  currency : List Char
  deriving DecidableEq

/-- `applyTemplate` of `src/utils/pdfProcessor.ts`: six sequential
global replacements, in source order
(date, merchant, invoice, month, amount, currency). -/
def applyTemplate (template : List Char) (info : ExtractedInfo) : List Char :=
  replaceAll "\x7bcurrency\x7d".data info.currency
    (replaceAll "\x7bamount\x7d".data info.amount.render
      (replaceAll "\x7bmonth\x7d".data info.month
        (replaceAll "\x7binvoice\x7d".data info.invoice
          (replaceAll "\x7bmerchant\x7d".data info.merchant
            (replaceAll "\x7bdate\x7d".data info.date template)))))

/-- Case-insensitive `.pdf`-suffix test, modelling
`name.toLowerCase().endsWith('.pdf')` in `src/App.tsx`. -/
def endsWithPdfCI (s : List Char) : Bool :=
  ".pdf".data.isSuffixOf (s.map Char.toLower)

/-- The closing-fence marker `` ``` `` stripped by the AI service. -/
def fenceTok : List Char := "```".data

/-- The opening-fence marker `` ```json `` stripped by the AI service. -/
def fenceJsonTok : List Char := "```json".data

/-- Fuel-driven core of the fence stripper
`text.replace(/```json|```/g, "")` of the AI service file: at each
position the alternation tries `` ```json `` first, then `` ``` ``, and a
match is replaced by the empty string. -/
def stripGo : Nat → List Char → List Char
  | 0, s => s
  | _ + 1, [] => []
  | fuel + 1, c :: rest =>
    if fenceJsonTok.isPrefixOf (c :: rest) then
      stripGo fuel ((c :: rest).drop fenceJsonTok.length)
    else if fenceTok.isPrefixOf (c :: rest) then
      stripGo fuel ((c :: rest).drop fenceTok.length)
    else
      c :: stripGo fuel rest

/-- Removal of all Markdown code-fence markers from a provider response. -/
def stripFences (s : List Char) : List Char :=
  stripGo s.length s

/-- `parseSafeJSON` of the AI service file: strip fence markers, trim,
then hand the text to the host JSON parser (here an abstract parameter
`jparse`, since JSON grammar is outside the claims). -/
def parseSafeJSON {α : Type} (jparse : List Char → α) (text : List Char) : α :=
  jparse (trimL (stripFences text))

/-- Status field of a tracked file (`src/types.ts`): the JS string enum
`'pending' | 'processing' | 'completed' | 'error'`. -/
inductive FileStatus where
  | pending
  | processing
  | completed
  | error
  deriving DecidableEq

/-- Provider selector of `RenameConfig` (the `AIProvider` enum). -/
inductive AIProvider where
  | glm
  | gemini
  | qwen
  deriving DecidableEq

/-- `RenameConfig` of the app: template string, sanitize toggle,
selected provider. -/
structure RenameConfig where
  template : List Char
  sanitize : Bool
  provider : AIProvider
  deriving DecidableEq

/-- `PDFFile` of `src/types.ts`; the `File` binary is an opaque content
id, and the optional `FileSystemFileHandle` is modelled by its
presence bit. -/
structure PDFFile where
  content : Nat
  hasHandle : Bool
  originalName : List Char
  newName : List Char
  extracted : Option ExtractedInfo
  status : FileStatus
  error : Option (List Char)
  deriving DecidableEq

/-- Host environment of one batch run: the joint outcome of
`convertPdfToImage` + `extractInvoiceData` per file content, whether a
directory write capability is held, and the outcome of a storage write
(`Except` carries the host error message). -/
structure Env where
  extract : AIProvider → Nat → Except (List Char) ExtractedInfo
  hasDir : Bool
  write : List Char → Nat → Except (List Char) Unit

/-- New-name computation of one `processFiles` iteration
(`src/App.tsx` lines 106–108): template, optional sanitize, enforce the
`.pdf` suffix case-insensitively. -/
def computeFinalName (config : RenameConfig) (info : ExtractedInfo) : List Char :=
  let base := applyTemplate config.template info
  let base := if config.sanitize then sanitizeFilename base else base
  if endsWithPdfCI base then base else base ++ ".pdf".data

/-- One iteration of the `processFiles` loop of `src/App.tsx` (lines
91–139), acting on the file at the current index: completed files are
skipped; otherwise the file is marked processing with its error cleared,
the extraction outcome is consulted, the new name computed, the storage
commit attempted when a directory capability and a file handle are
present (a failure there throws `写入文件失败: …` into the outer catch),
and the final status recorded. -/
def processOne (config : RenameConfig) (env : Env) (f : PDFFile) : PDFFile :=
  if f.status = FileStatus.completed then f
  else
    let f1 : PDFFile := { f with status := FileStatus.processing, error := none }
    match env.extract config.provider f.content with
    | Except.error msg => { f1 with status := FileStatus.error, error := some msg }
    | Except.ok info =>
      let finalName := computeFinalName config info
      if env.hasDir && f.hasHandle then
        match env.write finalName f.content with
        | Except.ok _ =>
          { f1 with extracted := some info, newName := finalName,
                    status := FileStatus.completed }
        | Except.error msg =>
          { f1 with status := FileStatus.error,
                    error := some ("写入文件失败: ".data ++ msg) }
      else
        { f1 with extracted := some info, newName := finalName,
                  status := FileStatus.completed }

/-- The whole `processFiles` batch run: the loop walks the list front to
back, each iteration touching only the file at its own index. -/
def processFiles (config : RenameConfig) (env : Env) : List PDFFile → List PDFFile
  | [] => []
  | f :: rest => processOne config env f :: processFiles config env rest

/-- Ingestion of one directory entry (`selectFolder` in `src/App.tsx`):
a fresh tracked file starts pending with `newName = originalName` and no
extracted record or error. -/
def ingestFile (content : Nat) (name : List Char) : PDFFile :=
  { content := content, hasHandle := true, originalName := name,
    newName := name, extracted := none, status := FileStatus.pending,
    error := none }

/-- Observable filesystem operations of the storage-commit block
(`src/App.tsx` lines 112–125). -/
inductive FsOp (α : Type) where
  | createFile (name : α)
  | writeContent (name : α)
  | closeFile (name : α)
  | removeEntry (name : α)
  deriving DecidableEq

/-- A directory as an association list from entry names to contents. -/
def getEntry {α β : Type} [DecidableEq α] (dir : List (α × β)) (n : α) : Option β :=
  match dir with
  | [] => none
  | e :: rest => if e.1 = n then some e.2 else getEntry rest n

/-- Create-or-overwrite an entry. -/
def setEntry {α β : Type} [DecidableEq α] (dir : List (α × β)) (n : α) (c : β) :
    List (α × β) :=
  (n, c) :: dir.filter (fun e => e.1 ≠ n)

/-- Remove an entry by name. -/
def removeName {α β : Type} [DecidableEq α] (dir : List (α × β)) (n : α) :
    List (α × β) :=
  dir.filter (fun e => e.1 ≠ n)

/-- Result of one storage commit: the operation trace issued against the
directory capability, the resulting directory, and the success bit. -/
structure CommitResult (α β : Type) where
  ops : List (FsOp α)
  dir : List (α × β)
  ok : Bool
  deriving DecidableEq

/-- The storage-commit block of `src/App.tsx` (lines 112–125): create and
write the entry at `newName`, close it, and only then — and only when
`newName ≠ oldName` — remove the entry at `oldName`.  A failed write
(`writeOk = false`) aborts before any removal; the File System Access API
stages `createWritable` output in a swap file that only replaces the
entry on a successful close, so the failure branch leaves the directory
unchanged (the possibly-created empty entry at `newName` is not modelled;
theorems about failure constrain only the entry at `oldName`). -/
def commit {α β : Type} [DecidableEq α] (dir : List (α × β)) (oldName newName : α)
    (content : β) (writeOk : Bool) : CommitResult α β :=
  if writeOk then
    let d1 := setEntry dir newName content
    if newName ≠ oldName then
      { ops := [FsOp.createFile newName, FsOp.writeContent newName,
                FsOp.closeFile newName, FsOp.removeEntry oldName],
        dir := removeName d1 oldName, ok := true }
    else
      { ops := [FsOp.createFile newName, FsOp.writeContent newName,
                FsOp.closeFile newName],
        dir := d1, ok := true }
  else
    { ops := [FsOp.createFile newName], dir := dir, ok := false }

/-- A template placeholder as a character list: `\x7b`, the word, `\x7d`. -/
def tokenPat (w : List Char) : List Char := lbrace :: (w ++ [rbrace])

/-- A template split into segments: literal text or a placeholder
`\x7bword\x7d`.  Used to state what the sequential replacement passes of
`applyTemplate` compute. -/
inductive Seg where
  | lit (chunk : List Char)
  | ph (word : List Char)
  deriving DecidableEq

/-- The text of one segment. -/
def segFlat : Seg → List Char
  | Seg.lit c => c
  | Seg.ph v => tokenPat v

/-- The text of a segment list. -/
def flattenSegs : List Seg → List Char
  | [] => []
  | s :: rest => segFlat s ++ flattenSegs rest

/-- Effect of one global-replace pass for the token `\x7bw\x7d` with
replacement `rep` on a segment: the matching placeholder becomes literal
replacement text, everything else is untouched. -/
def applyPassSeg (w rep : List Char) : Seg → Seg
  | Seg.lit c => Seg.lit c
  | Seg.ph v => if v = w then Seg.lit rep else Seg.ph v

/-- Well-formedness of a segment: literal chunks contain no `\x7b` (so no
token can start inside them), placeholder words contain no brace
(so distinct placeholders never match each other). -/
def segOk : Seg → Bool
  | Seg.lit c => c.all (fun ch => ch != lbrace)
  | Seg.ph v => v.all (fun ch => ch != lbrace && ch != rbrace)

/-- The six extracted fields contain no `\x7b`, so substituted field
values can never combine with surrounding text into a new placeholder. -/
def fieldsBraceFree (info : ExtractedInfo) : Bool :=
  info.date.all (fun ch => ch != lbrace) &&
  info.merchant.all (fun ch => ch != lbrace) &&
  info.invoice.all (fun ch => ch != lbrace) &&
  info.month.all (fun ch => ch != lbrace) &&
  info.amount.render.all (fun ch => ch != lbrace) &&
  info.currency.all (fun ch => ch != lbrace)

/-- The simultaneous one-pass rendering the spec describes for one
segment: each recognized placeholder becomes the corresponding field
(empty fields yield the empty string), unrecognized placeholders and
literal text stay verbatim. -/
def renderSeg (info : ExtractedInfo) : Seg → List Char
  | Seg.lit c => c
  | Seg.ph v =>
    if v = "date".data then info.date
    else if v = "merchant".data then info.merchant
    else if v = "invoice".data then info.invoice
    else if v = "month".data then info.month
    else if v = "amount".data then info.amount.render
    else if v = "currency".data then info.currency
    else tokenPat v

/-- The simultaneous one-pass rendering of a whole segment list. -/
def renderSegs (info : ExtractedInfo) : List Seg → List Char
  | [] => []
  | s :: rest => renderSeg info s ++ renderSegs info rest

/-- `p` occurs as a contiguous substring of the argument. -/
def occursIn (p : List Char) : List Char → Bool
  | [] => p.isEmpty
  | c :: rest => p.isPrefixOf (c :: rest) || occursIn p rest

/-- The batch-scenario environment: file content 1 is the corrupt PDF
(extraction fails), contents 0 and 2 extract successfully; the write
capability is held and every write succeeds. -/
def batchScenarioEnv : Env :=
  { extract := fun _ n =>
      if n = 1 then Except.error "解析失败".data
      else Except.ok { date := "2024-01-05".data, merchant := "Acme".data,
                       invoice := "水电费".data, month := "01".data,
                       amount := { render := "42.5".data }, currency := "CNY".data }
    hasDir := true
    write := fun _ _ => Except.ok () }

/-- The batch-scenario configuration (the app's default template, with
sanitization on). -/
def batchScenarioConfig : RenameConfig :=
  { template := "\x7bdate\x7d_\x7bmerchant\x7d_\x7bamount\x7d".data,
    sanitize := true, provider := AIProvider.glm }

/-- Per-file state invariant of the spec (§3 and §8): a completed file
carries an extracted record and a `.pdf`-suffixed (case-insensitive) new
name, and the error field is present exactly on failed files. -/
def fileInvariant (f : PDFFile) : Bool :=
  (!(f.status == FileStatus.completed)
    || (f.extracted.isSome && endsWithPdfCI f.newName)) &&
  (f.error.isSome == (f.status == FileStatus.error))

/-- A record whose merchant field is empty (the other fields are
ordinary). -/
def merchantlessInfo : ExtractedInfo :=
  { date := "2024-01-05".data, merchant := [], invoice := "水电费".data,
    month := "01".data, amount := { render := "42.5".data },
    currency := "CNY".data }

theorem length_dropWhile_le (p : Char → Bool) (l : List Char) :
    (l.dropWhile p).length ≤ l.length := by
  induction l with
  | nil => simp
  | cons a l ih =>
    by_cases h : p a
    · simp only [List.dropWhile_cons, h, if_true]
      exact Nat.le_succ_of_le ih
    · simp [List.dropWhile_cons, h]

theorem mem_of_mem_dropWhile {p : Char → Bool} {l : List Char} {c : Char}
    (h : c ∈ l.dropWhile p) : c ∈ l := by
  induction l with
  | nil => simp at h
  | cons a l ih =>
    by_cases hp : p a
    · simp only [List.dropWhile_cons, hp, if_true] at h
      exact List.mem_cons_of_mem a (ih h)
    · simpa [List.dropWhile_cons, hp] using h

theorem dropWhile_dropWhile_same (p : Char → Bool) (l : List Char) :
    (l.dropWhile p).dropWhile p = l.dropWhile p := by
  induction l with
  | nil => simp
  | cons a l ih =>
    by_cases h : p a
    · simpa [List.dropWhile_cons, h] using ih
    · simp [List.dropWhile_cons, h]

theorem exists_append_dropWhile (p : Char → Bool) (l : List Char) :
    ∃ t, t ++ l.dropWhile p = l := by
  induction l with
  | nil => exact ⟨[], rfl⟩
  | cons a l ih =>
    by_cases h : p a
    · obtain ⟨t, ht⟩ := ih
      exact ⟨a :: t, by simp [List.dropWhile_cons, h, ht]⟩
    · exact ⟨[], by simp [List.dropWhile_cons, h]⟩

theorem dropWhile_eq_self_append {p : Char → Bool} {x y : List Char}
    (h : (x ++ y).dropWhile p = x ++ y) : x.dropWhile p = x := by
  cases x with
  | nil => simp
  | cons a x' =>
    have ha : p a = false := by
      by_contra hcontra
      have hpa : p a = true := by
        cases hval : p a
        · exact absurd hval hcontra
        · rfl
      have hlen := length_dropWhile_le p (x' ++ y)
      rw [List.cons_append, List.dropWhile_cons, hpa, if_pos rfl] at h
      have h2 := congrArg List.length h
      simp only [List.length_cons] at h2
      omega
    simp [List.dropWhile_cons, ha]

theorem dropWhile_self_head {p : Char → Bool} {l : List Char} {c : Char}
    (hself : l.dropWhile p = l) (hc : l.head? = some c) : p c = false := by
  cases l with
  | nil => simp at hc
  | cons a l' =>
    have hac : a = c := by simpa using hc
    subst hac
    by_contra hcontra
    have hpa : p a = true := by
      cases hval : p a
      · exact absurd hval hcontra
      · rfl
    rw [List.dropWhile_cons, hpa, if_pos rfl] at hself
    have hlen := length_dropWhile_le p l'
    have := congrArg List.length hself
    simp at this
    omega

theorem trimL_dropWhile (l : List Char) :
    (trimL l).dropWhile wsChar = trimL l := by
  unfold trimL
  obtain ⟨t, ht⟩ := exists_append_dropWhile wsChar (l.dropWhile wsChar).reverse
  have hA : l.dropWhile wsChar
      = ((l.dropWhile wsChar).reverse.dropWhile wsChar).reverse ++ t.reverse := by
    have := congrArg List.reverse ht
    simpa [List.reverse_append] using this.symm
  exact dropWhile_eq_self_append (x := ((l.dropWhile wsChar).reverse.dropWhile wsChar).reverse)
    (y := t.reverse) (by rw [← hA]; exact dropWhile_dropWhile_same wsChar l)

theorem trimL_reverse_dropWhile (l : List Char) :
    (trimL l).reverse.dropWhile wsChar = (trimL l).reverse := by
  unfold trimL
  rw [List.reverse_reverse]
  exact dropWhile_dropWhile_same wsChar (l.dropWhile wsChar).reverse

theorem trimL_trimL (l : List Char) : trimL (trimL l) = trimL l := by
  show (((trimL l).dropWhile wsChar).reverse.dropWhile wsChar).reverse = trimL l
  rw [trimL_dropWhile, trimL_reverse_dropWhile, List.reverse_reverse]

theorem mem_of_mem_trimL {l : List Char} {c : Char} (h : c ∈ trimL l) : c ∈ l := by
  unfold trimL at h
  rw [List.mem_reverse] at h
  have h1 := mem_of_mem_dropWhile h
  rw [List.mem_reverse] at h1
  exact mem_of_mem_dropWhile h1

theorem replaceReservedChar_not_reserved (c : Char) :
    isReservedChar (replaceReservedChar c) = false := by
  unfold replaceReservedChar
  by_cases h : isReservedChar c = true
  · simp only [h, if_true]
    decide
  · simp at h
    simp [h]

theorem replaceReservedChar_idem (c : Char) :
    replaceReservedChar (replaceReservedChar c) = replaceReservedChar c := by
  unfold replaceReservedChar
  by_cases h : isReservedChar c = true
  · simp only [h, if_true]
    decide
  · simp at h
    simp [h]

theorem not_reserved_of_mem_sanitize {s : List Char} {c : Char}
    (h : c ∈ sanitizeFilename s) : isReservedChar c = false := by
  unfold sanitizeFilename at h
  have hm := mem_of_mem_trimL h
  obtain ⟨c0, _, hc0⟩ := List.mem_map.mp hm
  rw [← hc0]
  exact replaceReservedChar_not_reserved c0

/-- C7.  `sanitize` is idempotent: applying `sanitizeFilename` twice
yields the same string as applying it once, for every string. -/
theorem spec_sanitize_idempotent (s : List Char) :
    sanitizeFilename (sanitizeFilename s) = sanitizeFilename s := by
  unfold sanitizeFilename
  have hmap : (trimL (s.map replaceReservedChar)).map replaceReservedChar
      = trimL (s.map replaceReservedChar) := by
    have hid : ∀ c ∈ trimL (s.map replaceReservedChar), replaceReservedChar c = c := by
      intro c hc
      obtain ⟨c0, _, hc0⟩ := List.mem_map.mp (mem_of_mem_trimL hc)
      rw [← hc0]
      exact replaceReservedChar_idem c0
    calc (trimL (s.map replaceReservedChar)).map replaceReservedChar
        = (trimL (s.map replaceReservedChar)).map id := List.map_congr_left hid
      _ = trimL (s.map replaceReservedChar) := List.map_id _
  rw [hmap, trimL_trimL]

/-- C6.  `sanitizeFilename` is the reserved-character replacement pass
followed by a both-ends whitespace trim: the pass preserves length and
rewrites each position independently (a reserved character becomes `_`,
anything else is kept), and on the spec's scenario input
`"Invoice: Q1/2024?.pdf"` the result is `"Invoice_ Q1_2024_.pdf"`. -/
theorem spec_sanitize_charwise :
    (∀ s : List Char,
      sanitizeFilename s = trimL (s.map replaceReservedChar) ∧
      (s.map replaceReservedChar).length = s.length ∧
      ∀ i : Nat, (s.map replaceReservedChar)[i]?
        = s[i]?.map replaceReservedChar) ∧
    sanitizeFilename "Invoice: Q1/2024?.pdf".data = "Invoice_ Q1_2024_.pdf".data := by
  refine ⟨fun s => ⟨rfl, List.length_map s replaceReservedChar, fun i => ?_⟩, by decide⟩
  exact List.getElem?_map replaceReservedChar s i

/-- C10.  Every output of `sanitizeFilename` is free of the
filesystem-reserved characters and carries no leading or trailing
whitespace; consequently, when `config.sanitize` is set, every final
name the pipeline computes (sanitized base plus enforced `.pdf` suffix)
is free of reserved characters. -/
theorem spec_sanitize_output_clean :
    ∀ s : List Char,
      (∀ c ∈ sanitizeFilename s, isReservedChar c = false) ∧
      (∀ c, (sanitizeFilename s).head? = some c → wsChar c = false) ∧
      (∀ c, (sanitizeFilename s).getLast? = some c → wsChar c = false) ∧
      (∀ (config : RenameConfig) (info : ExtractedInfo), config.sanitize = true →
        ∀ c ∈ computeFinalName config info, isReservedChar c = false) := by
  intro s
  refine ⟨fun c hc => not_reserved_of_mem_sanitize hc, ?_, ?_, ?_⟩
  · intro c hc
    exact dropWhile_self_head (trimL_dropWhile (s.map replaceReservedChar)) hc
  · intro c hc
    have hrev : (sanitizeFilename s).reverse.head? = some c := by
      rw [List.head?_reverse]
      exact hc
    exact dropWhile_self_head (trimL_reverse_dropWhile (s.map replaceReservedChar)) hrev
  · intro config info hsan c hc
    unfold computeFinalName at hc
    rw [hsan] at hc
    simp only [if_true] at hc
    by_cases hend : endsWithPdfCI (sanitizeFilename (applyTemplate config.template info)) = true
    · rw [if_pos hend] at hc
      exact not_reserved_of_mem_sanitize hc
    · rw [if_neg hend] at hc
      rcases List.mem_append.mp hc with hmem | hmem
      · exact not_reserved_of_mem_sanitize hmem
      · fin_cases hmem <;> decide

/-- Closed instance of `spec_sanitize_output_clean`, discharging its
hypotheses on concrete inputs. -/
theorem spec_sanitize_output_clean_witness :
    isReservedChar '_' = false ∧ wsChar 'I' = false :=
  ⟨(spec_sanitize_output_clean "a?b".data).1 '_' (by decide),
   (spec_sanitize_output_clean "Invoice: x".data).2.1 'I' (by decide)⟩

/-- C5.  The spec's rendering scenario: template
`"\x7bdate\x7d_\x7bmerchant\x7d_\x7bamount\x7d"` with date `2024-01-05`,
merchant `Acme`, amount rendered `42.5` gives
`"2024-01-05_Acme_42.5"` before suffixing (sanitization is the identity
here), the name does not yet end in `.pdf` case-insensitively, and the
full name computation yields `"2024-01-05_Acme_42.5.pdf"`. -/
theorem spec_scenario_template_rendering :
    applyTemplate "\x7bdate\x7d_\x7bmerchant\x7d_\x7bamount\x7d".data
        { date := "2024-01-05".data, merchant := "Acme".data, invoice := "水电费".data,
          month := "01".data, amount := { render := "42.5".data },
          currency := "CNY".data }
      = "2024-01-05_Acme_42.5".data ∧
    sanitizeFilename "2024-01-05_Acme_42.5".data = "2024-01-05_Acme_42.5".data ∧
    endsWithPdfCI "2024-01-05_Acme_42.5".data = false ∧
    computeFinalName
        { template := "\x7bdate\x7d_\x7bmerchant\x7d_\x7bamount\x7d".data,
          sanitize := true, provider := AIProvider.glm }
        { date := "2024-01-05".data, merchant := "Acme".data, invoice := "水电费".data,
          month := "01".data, amount := { render := "42.5".data },
          currency := "CNY".data }
      = "2024-01-05_Acme_42.5.pdf".data := by
  exact ⟨by decide, by decide, by decide, by decide⟩

theorem isPrefixOf_append_self (a b : List Char) : a.isPrefixOf (a ++ b) = true := by
  induction a with
  | nil => simp [List.isPrefixOf]
  | cons x a' ih => simp [List.isPrefixOf, ih]

theorem endsWithPdfCI_append (s : List Char) :
    endsWithPdfCI (s ++ ".pdf".data) = true := by
  unfold endsWithPdfCI
  rw [List.map_append, show ".pdf".data.map Char.toLower = ".pdf".data by decide]
  unfold List.isSuffixOf
  rw [List.reverse_append]
  exact isPrefixOf_append_self _ _

theorem endsWithPdfCI_computeFinalName (config : RenameConfig) (info : ExtractedInfo) :
    endsWithPdfCI (computeFinalName config info) = true := by
  unfold computeFinalName
  by_cases h : endsWithPdfCI
      (if config.sanitize then sanitizeFilename (applyTemplate config.template info)
       else applyTemplate config.template info) = true
  · simp [h]
  · simp only [Bool.not_eq_true] at h
    simp only [h, if_false]
    exact endsWithPdfCI_append _

/-- C2.  The batch run is the in-order, element-wise image of the
per-file step: each file's outcome depends only on that file, so one
file's failure neither aborts nor corrupts the others, the list length
is preserved, and every non-completed file is attempted exactly once;
on the spec's scenario [valid, corrupt, valid] the statuses after one
run are [completed, error, completed] in order. -/
theorem spec_batch_order_isolation :
    (∀ (config : RenameConfig) (env : Env) (files : List PDFFile),
      processFiles config env files = files.map (processOne config env)) ∧
    (∀ (config : RenameConfig) (env : Env) (files : List PDFFile),
      (processFiles config env files).length = files.length) ∧
    (processFiles batchScenarioConfig batchScenarioEnv
        [ingestFile 0 "a.pdf".data, ingestFile 1 "b.pdf".data,
         ingestFile 2 "c.pdf".data]).map PDFFile.status
      = [FileStatus.completed, FileStatus.error, FileStatus.completed] := by
  have hmap : ∀ (config : RenameConfig) (env : Env) (files : List PDFFile),
      processFiles config env files = files.map (processOne config env) := by
    intro config env files
    induction files with
    | nil => rfl
    | cons f rest ih => simp [processFiles, ih]
  refine ⟨hmap, fun config env files => ?_, by decide⟩
  rw [hmap]
  exact List.length_map files (processOne config env)

/-- C3.  A file already in `completed` is skipped by a re-invoked batch
run: the per-file step returns it unchanged for every configuration and
environment (template changes included), so its `newName` and
`extracted` are untouched. -/
theorem spec_completed_files_skipped :
    ∀ (config : RenameConfig) (env : Env) (f : PDFFile),
      f.status = FileStatus.completed →
      processOne config env f = f ∧
      (processOne config env f).newName = f.newName ∧
      (processOne config env f).extracted = f.extracted := by
  intro config env f h
  have hskip : processOne config env f = f := by
    unfold processOne
    rw [if_pos h]
  exact ⟨hskip, by rw [hskip], by rw [hskip]⟩

/-- Closed instance of `spec_completed_files_skipped` on a concrete
completed file. -/
theorem spec_completed_files_skipped_witness :
    processOne batchScenarioConfig batchScenarioEnv
      { content := 5, hasHandle := true, originalName := "a.pdf".data,
        newName := "done.pdf".data,
        extracted := some { date := "2024-01-05".data, merchant := "Acme".data,
                            invoice := "水电费".data, month := "01".data,
                            amount := { render := "42.5".data },
                            currency := "CNY".data },
        status := FileStatus.completed, error := none }
      = { content := 5, hasHandle := true, originalName := "a.pdf".data,
          newName := "done.pdf".data,
          extracted := some { date := "2024-01-05".data, merchant := "Acme".data,
                              invoice := "水电费".data, month := "01".data,
                              amount := { render := "42.5".data },
                              currency := "CNY".data },
          status := FileStatus.completed, error := none } :=
  (spec_completed_files_skipped batchScenarioConfig batchScenarioEnv _ rfl).1

theorem fileInvariant_processOne (config : RenameConfig) (env : Env) (f : PDFFile)
    (h : fileInvariant f = true) : fileInvariant (processOne config env f) = true := by
  unfold processOne
  by_cases hc : f.status = FileStatus.completed
  · rw [if_pos hc]
    exact h
  · rw [if_neg hc]
    cases hx : env.extract config.provider f.content with
    | error msg => simp [fileInvariant]
    | ok info =>
      by_cases hd : (env.hasDir && f.hasHandle) = true
      · simp only [hd, if_true]
        cases hw : env.write (computeFinalName config info) f.content with
        | ok u => simp [fileInvariant, endsWithPdfCI_computeFinalName]
        | error msg => simp [fileInvariant]
      · simp only [Bool.not_eq_true] at hd
        simp [hd, fileInvariant, endsWithPdfCI_computeFinalName]

/-- C9.  A batch run preserves the per-file invariant: after running on
any file list whose entries satisfy it (freshly ingested files do
trivially), every completed file has an extracted record and a new name
ending in `.pdf` case-insensitively, and the error field is present iff
the status is `error` (the processing transition clears prior errors). -/
theorem spec_completed_invariant :
    ∀ (config : RenameConfig) (env : Env) (files : List PDFFile),
      (∀ f ∈ files, fileInvariant f = true) →
      ∀ g ∈ processFiles config env files, fileInvariant g = true := by
  intro config env files hinv
  induction files with
  | nil => intro g hg; simp [processFiles] at hg
  | cons f rest ih =>
    intro g hg
    rcases List.mem_cons.mp hg with hgf | hgr
    · rw [hgf]
      exact fileInvariant_processOne config env f (hinv f (List.mem_cons_self f rest))
    · exact ih (fun x hx => hinv x (List.mem_cons_of_mem f hx)) g hgr

/-- Closed instance of `spec_completed_invariant` on a concrete
one-file batch. -/
theorem spec_completed_invariant_witness :
    fileInvariant (processOne batchScenarioConfig batchScenarioEnv
      (ingestFile 0 "a.pdf".data)) = true :=
  spec_completed_invariant batchScenarioConfig batchScenarioEnv
    [ingestFile 0 "a.pdf".data] (by decide) _ (by decide)

/-- C1.  The storage commit removes the entry at `oldName` exactly when
the write succeeded and the new name differs from the old one; when it
does, the removal is the last operation, strictly after the write and
close of the new entry; a commit with `newName = oldName` issues no
removal at all; and a failed write reports failure and leaves the entry
at `oldName` untouched. -/
theorem spec_commit_remove_after_write :
    ∀ {α β : Type} [DecidableEq α] (dir : List (α × β)) (oldName newName : α)
      (content : β) (writeOk : Bool),
      (FsOp.removeEntry oldName ∈ (commit dir oldName newName content writeOk).ops ↔
        writeOk = true ∧ newName ≠ oldName) ∧
      (writeOk = true → newName ≠ oldName →
        (commit dir oldName newName content writeOk).ops =
          [FsOp.createFile newName, FsOp.writeContent newName, FsOp.closeFile newName,
           FsOp.removeEntry oldName]) ∧
      (newName = oldName →
        ∀ n, FsOp.removeEntry n ∉ (commit dir oldName newName content writeOk).ops) ∧
      (writeOk = false →
        (commit dir oldName newName content writeOk).ok = false ∧
        getEntry (commit dir oldName newName content writeOk).dir oldName =
          getEntry dir oldName) := by
  intro α β _ dir oldName newName content writeOk
  cases writeOk with
  | false =>
    refine ⟨by simp [commit], by simp, fun heq n => by simp [commit], fun _ => ?_⟩
    simp [commit]
  | true =>
    by_cases hne : newName = oldName
    · refine ⟨?_, fun _ hcontra => absurd hne hcontra, fun _ n => ?_, by simp⟩
      · simp [commit, hne]
      · simp [commit, hne]
    · refine ⟨?_, fun _ _ => by simp [commit, hne], fun heq => absurd heq hne, by simp⟩
      simp [commit, hne]

/-- Closed instance of `spec_commit_remove_after_write`: a successful
commit under a changed name issues create, write, close, then the
removal of the old entry. -/
theorem spec_commit_remove_after_write_witness :
    (commit [((0 : Nat), (5 : Nat))] 0 1 7 true).ops =
      [FsOp.createFile 1, FsOp.writeContent 1, FsOp.closeFile 1,
       FsOp.removeEntry 0] :=
  (spec_commit_remove_after_write [((0 : Nat), (5 : Nat))] 0 1 7 true).2.1 rfl
    (by decide)

theorem replaceAllGo_fuel (p : Char) (ps rep : List Char) :
    ∀ (f1 : Nat) (s : List Char) (f2 : Nat), s.length ≤ f1 → s.length ≤ f2 →
      replaceAllGo p ps rep f1 s = replaceAllGo p ps rep f2 s := by
  intro f1
  induction f1 with
  | zero =>
    intro s f2 h1 _
    have hs : s = [] := List.eq_nil_of_length_eq_zero (Nat.le_zero.mp h1)
    subst hs
    cases f2 <;> simp [replaceAllGo]
  | succ a ih =>
    intro s f2 h1 h2
    cases s with
    | nil => cases f2 <;> simp [replaceAllGo]
    | cons c rest =>
      cases f2 with
      | zero => simp at h2
      | succ b =>
        simp only [List.length_cons, Nat.succ_le_succ_iff] at h1 h2
        simp only [replaceAllGo]
        by_cases hp : (p :: ps).isPrefixOf (c :: rest) = true
        · rw [if_pos hp, if_pos hp]
          have hd : (rest.drop ps.length).length ≤ rest.length := by
            rw [List.length_drop]
            omega
          exact congrArg (rep ++ ·) (ih _ _ (le_trans hd h1) (le_trans hd h2))
        · rw [if_neg hp, if_neg hp]
          exact congrArg (c :: ·) (ih _ _ h1 h2)

theorem replaceAll_pos {p c : Char} {ps rest : List Char} (rep : List Char)
    (h : (p :: ps).isPrefixOf (c :: rest) = true) :
    replaceAll (p :: ps) rep (c :: rest)
      = rep ++ replaceAll (p :: ps) rep (rest.drop ps.length) := by
  show replaceAllGo p ps rep (c :: rest).length (c :: rest) = _
  simp only [List.length_cons]
  simp only [replaceAllGo]
  rw [if_pos h]
  refine congrArg (rep ++ ·) (replaceAllGo_fuel p ps rep rest.length _ _ ?_ (le_refl _))
  rw [List.length_drop]
  omega

theorem replaceAll_neg {p c : Char} {ps rest : List Char} (rep : List Char)
    (h : (p :: ps).isPrefixOf (c :: rest) = false) :
    replaceAll (p :: ps) rep (c :: rest) = c :: replaceAll (p :: ps) rep rest := by
  show replaceAllGo p ps rep (c :: rest).length (c :: rest) = _
  simp only [List.length_cons]
  simp only [replaceAllGo]
  rw [if_neg (by rw [h]; exact Bool.false_ne_true)]
  exact congrArg (c :: ·) (replaceAllGo_fuel p ps rep rest.length _ _ (le_refl _)
    (le_refl _))

theorem replaceAll_step_over {ps : List Char} (rep chunk X : List Char)
    (hc : ∀ ch ∈ chunk, ch ≠ lbrace) :
    replaceAll (lbrace :: ps) rep (chunk ++ X)
      = chunk ++ replaceAll (lbrace :: ps) rep X := by
  induction chunk with
  | nil => simp
  | cons a c' ih =>
    have ha : a ≠ lbrace := hc a (List.mem_cons_self a c')
    have hpf : (lbrace :: ps).isPrefixOf (a :: (c' ++ X)) = false := by
      simp only [List.isPrefixOf, Bool.and_eq_false_iff]
      left
      simp only [beq_eq_false_iff_ne]
      exact fun hcontra => ha hcontra.symm
    rw [List.cons_append, replaceAll_neg rep hpf,
      ih (fun ch hm => hc ch (List.mem_cons_of_mem a hm))]
    rfl

theorem pat_tail_no_match :
    ∀ (w v X : List Char), (∀ ch ∈ w, ch ≠ rbrace) → (∀ ch ∈ v, ch ≠ rbrace) →
      v ≠ w → (w ++ [rbrace]).isPrefixOf (v ++ rbrace :: X) = false := by
  intro w
  induction w with
  | nil =>
    intro v X _ hv hne
    cases v with
    | nil => exact absurd rfl hne
    | cons b v' =>
      have hb : b ≠ rbrace := hv b (List.mem_cons_self b v')
      simp only [List.nil_append, List.cons_append, List.isPrefixOf,
        Bool.and_eq_false_iff]
      left
      simp only [beq_eq_false_iff_ne]
      exact fun hcontra => hb hcontra.symm
  | cons a w' ih =>
    intro v X hw hv hne
    cases v with
    | nil =>
      have hane : a ≠ rbrace := hw a (List.mem_cons_self a w')
      simp only [List.nil_append, List.cons_append, List.isPrefixOf,
        Bool.and_eq_false_iff]
      left
      simp only [beq_eq_false_iff_ne]
      exact hane
    | cons b v' =>
      by_cases hab : a = b
      · subst hab
        simp only [List.cons_append, List.isPrefixOf, Bool.and_eq_false_iff]
        right
        exact ih v' X (fun ch hm => hw ch (List.mem_cons_of_mem a hm))
          (fun ch hm => hv ch (List.mem_cons_of_mem a hm))
          (fun hcontra => hne (by rw [hcontra]))
      · simp only [List.cons_append, List.isPrefixOf, Bool.and_eq_false_iff]
        left
        simp only [beq_eq_false_iff_ne]
        exact hab

theorem segOk_lit {c : List Char} (h : segOk (Seg.lit c) = true) :
    ∀ ch ∈ c, ch ≠ lbrace := by
  simp only [segOk, List.all_eq_true, bne_iff_ne] at h
  exact h

theorem segOk_ph {v : List Char} (h : segOk (Seg.ph v) = true) :
    ∀ ch ∈ v, ch ≠ lbrace ∧ ch ≠ rbrace := by
  simp only [segOk, List.all_eq_true, Bool.and_eq_true, bne_iff_ne] at h
  exact h

theorem segOk_applyPass (w rep : List Char)
    (hrep : rep.all (fun ch => ch != lbrace) = true) (s : Seg)
    (hs : segOk s = true) : segOk (applyPassSeg w rep s) = true := by
  cases s with
  | lit c => exact hs
  | ph v =>
    by_cases hv : v = w
    · simp only [applyPassSeg, if_pos hv, segOk]
      exact hrep
    · simp only [applyPassSeg, if_neg hv]
      exact hs

theorem replacePass (w rep : List Char)
    (hw : ∀ ch ∈ w, ch ≠ lbrace ∧ ch ≠ rbrace) :
    ∀ (segs : List Seg), (∀ s ∈ segs, segOk s = true) →
      replaceAll (tokenPat w) rep (flattenSegs segs)
        = flattenSegs (segs.map (applyPassSeg w rep)) := by
  intro segs
  induction segs with
  | nil => intro _; rfl
  | cons s rest ih =>
    intro hs
    have hsh : segOk s = true := hs s (List.mem_cons_self s rest)
    have hst : ∀ x ∈ rest, segOk x = true :=
      fun x hx => hs x (List.mem_cons_of_mem s hx)
    have ihx := ih hst
    unfold tokenPat at ihx
    cases s with
    | lit c =>
      show replaceAll (lbrace :: (w ++ [rbrace])) rep (c ++ flattenSegs rest) = _
      rw [replaceAll_step_over rep c _ (segOk_lit hsh), ihx]
      rfl
    | ph v =>
      by_cases hv : v = w
      · subst hv
        show replaceAll (lbrace :: (v ++ [rbrace])) rep
            (tokenPat v ++ flattenSegs rest) = _
        have hshape : tokenPat v ++ flattenSegs rest
            = lbrace :: ((v ++ [rbrace]) ++ flattenSegs rest) := by
          simp [tokenPat]
        rw [hshape, replaceAll_pos rep (by
          simp only [List.isPrefixOf, Bool.and_eq_true, beq_self_eq_true,
            true_and]
          exact isPrefixOf_append_self _ _)]
        rw [show ((v ++ [rbrace]) ++ flattenSegs rest).drop (v ++ [rbrace]).length
            = flattenSegs rest from List.drop_left _ _]
        rw [ihx]
        show rep ++ flattenSegs (rest.map (applyPassSeg v rep))
          = flattenSegs ((Seg.ph v :: rest).map (applyPassSeg v rep))
        simp [flattenSegs, applyPassSeg, segFlat]
      · show replaceAll (lbrace :: (w ++ [rbrace])) rep
            (tokenPat v ++ flattenSegs rest) = _
        have hshape : tokenPat v ++ flattenSegs rest
            = lbrace :: (v ++ rbrace :: flattenSegs rest) := by
          simp [tokenPat]
        have hvfree := segOk_ph hsh
        rw [hshape, replaceAll_neg rep (by
          simp only [List.isPrefixOf, Bool.and_eq_false_iff]
          right
          exact pat_tail_no_match w v _ (fun ch hm => (hw ch hm).2)
            (fun ch hm => (hvfree ch hm).2) hv)]
        rw [replaceAll_step_over rep v _ (fun ch hm => (hvfree ch hm).1)]
        rw [replaceAll_neg rep (by
          simp only [List.isPrefixOf, Bool.and_eq_false_iff]
          left
          simp only [beq_eq_false_iff_ne]
          decide)]
        rw [ihx]
        show lbrace :: (v ++ rbrace :: flattenSegs (rest.map (applyPassSeg w rep)))
          = flattenSegs ((Seg.ph v :: rest).map (applyPassSeg w rep))
        simp [flattenSegs, applyPassSeg, segFlat, hv, tokenPat]

theorem segFlat_sixPass (info : ExtractedInfo) (s : Seg) :
    segFlat (applyPassSeg "currency".data info.currency
      (applyPassSeg "amount".data info.amount.render
        (applyPassSeg "month".data info.month
          (applyPassSeg "invoice".data info.invoice
            (applyPassSeg "merchant".data info.merchant
              (applyPassSeg "date".data info.date s))))))
      = renderSeg info s := by
  cases s with
  | lit c => rfl
  | ph v =>
    by_cases h1 : v = "date".data
    · simp [applyPassSeg, renderSeg, segFlat, h1]
    · by_cases h2 : v = "merchant".data
      · simp [applyPassSeg, renderSeg, segFlat, h1, h2]
      · by_cases h3 : v = "invoice".data
        · simp [applyPassSeg, renderSeg, segFlat, h1, h2, h3]
        · by_cases h4 : v = "month".data
          · simp [applyPassSeg, renderSeg, segFlat, h1, h2, h3, h4]
          · by_cases h5 : v = "amount".data
            · simp [applyPassSeg, renderSeg, segFlat, h1, h2, h3, h4, h5]
            · by_cases h6 : v = "currency".data
              · simp [applyPassSeg, renderSeg, segFlat, h1, h2, h3, h4, h5, h6]
              · simp [applyPassSeg, renderSeg, segFlat, h1, h2, h3, h4, h5, h6]

theorem flattenSegs_sixPass (info : ExtractedInfo) (segs : List Seg) :
    flattenSegs ((((((segs.map
        (applyPassSeg "date".data info.date)).map
        (applyPassSeg "merchant".data info.merchant)).map
        (applyPassSeg "invoice".data info.invoice)).map
        (applyPassSeg "month".data info.month)).map
        (applyPassSeg "amount".data info.amount.render)).map
        (applyPassSeg "currency".data info.currency))
      = renderSegs info segs := by
  induction segs with
  | nil => rfl
  | cons s rest ih =>
    simp only [List.map_cons]
    show segFlat _ ++ _ = renderSeg info s ++ renderSegs info rest
    rw [segFlat_sixPass info s, ih]

/-- C4 (amended).  For every record whose six fields contain no `\x7b`
(so a substituted value can never combine with surrounding text into a
new placeholder) and every template given as well-formed segments —
literal chunks without `\x7b`, placeholder words without braces —
`applyTemplate` computes exactly the spec's one-pass rendering: every
occurrence of each recognized placeholder token is replaced by the
corresponding field, an empty field is substituted as the empty string
(no fallback), and literal text and unrecognized placeholder tokens are
left verbatim. -/
theorem spec_template_segment_rendering :
    ∀ (info : ExtractedInfo) (segs : List Seg),
      fieldsBraceFree info = true →
      (∀ s ∈ segs, segOk s = true) →
      applyTemplate (flattenSegs segs) info = renderSegs info segs := by
  intro info segs hfields hs
  simp only [fieldsBraceFree, Bool.and_eq_true] at hfields
  obtain ⟨⟨⟨⟨⟨hd, hm⟩, hi⟩, hmo⟩, ha⟩, hc⟩ := hfields
  have hsegs1 : ∀ s ∈ segs.map (applyPassSeg "date".data info.date),
      segOk s = true := by
    intro s hmem
    obtain ⟨s0, hs0, hrfl⟩ := List.mem_map.mp hmem
    rw [← hrfl]
    exact segOk_applyPass _ _ hd s0 (hs s0 hs0)
  have hsegs2 : ∀ s ∈ (segs.map (applyPassSeg "date".data info.date)).map
      (applyPassSeg "merchant".data info.merchant), segOk s = true := by
    intro s hmem
    obtain ⟨s0, hs0, hrfl⟩ := List.mem_map.mp hmem
    rw [← hrfl]
    exact segOk_applyPass _ _ hm s0 (hsegs1 s0 hs0)
  have hsegs3 : ∀ s ∈ ((segs.map (applyPassSeg "date".data info.date)).map
      (applyPassSeg "merchant".data info.merchant)).map
      (applyPassSeg "invoice".data info.invoice), segOk s = true := by
    intro s hmem
    obtain ⟨s0, hs0, hrfl⟩ := List.mem_map.mp hmem
    rw [← hrfl]
    exact segOk_applyPass _ _ hi s0 (hsegs2 s0 hs0)
  have hsegs4 : ∀ s ∈ (((segs.map (applyPassSeg "date".data info.date)).map
      (applyPassSeg "merchant".data info.merchant)).map
      (applyPassSeg "invoice".data info.invoice)).map
      (applyPassSeg "month".data info.month), segOk s = true := by
    intro s hmem
    obtain ⟨s0, hs0, hrfl⟩ := List.mem_map.mp hmem
    rw [← hrfl]
    exact segOk_applyPass _ _ hmo s0 (hsegs3 s0 hs0)
  have hsegs5 : ∀ s ∈ ((((segs.map (applyPassSeg "date".data info.date)).map
      (applyPassSeg "merchant".data info.merchant)).map
      (applyPassSeg "invoice".data info.invoice)).map
      (applyPassSeg "month".data info.month)).map
      (applyPassSeg "amount".data info.amount.render), segOk s = true := by
    intro s hmem
    obtain ⟨s0, hs0, hrfl⟩ := List.mem_map.mp hmem
    rw [← hrfl]
    exact segOk_applyPass _ _ ha s0 (hsegs4 s0 hs0)
  unfold applyTemplate
  rw [show "\x7bdate\x7d".data = tokenPat "date".data from by decide,
    show "\x7bmerchant\x7d".data = tokenPat "merchant".data from by decide,
    show "\x7binvoice\x7d".data = tokenPat "invoice".data from by decide,
    show "\x7bmonth\x7d".data = tokenPat "month".data from by decide,
    show "\x7bamount\x7d".data = tokenPat "amount".data from by decide,
    show "\x7bcurrency\x7d".data = tokenPat "currency".data from by decide]
  rw [replacePass "date".data info.date (by decide) segs hs]
  rw [replacePass "merchant".data info.merchant (by decide) _ hsegs1]
  rw [replacePass "invoice".data info.invoice (by decide) _ hsegs2]
  rw [replacePass "month".data info.month (by decide) _ hsegs3]
  rw [replacePass "amount".data info.amount.render (by decide) _ hsegs4]
  rw [replacePass "currency".data info.currency (by decide) _ hsegs5]
  exact flattenSegs_sixPass info segs

/-- C4 counterexample.  On a record whose merchant field is empty, the
template `"\x7bmerchant\x7d"` renders to the empty string: the engine
substitutes the empty field verbatim, so no defined (non-empty) fallback
string is ever produced, refuting the claim's fallback clause. -/
theorem spec_template_no_fallback :
    applyTemplate "\x7bmerchant\x7d".data merchantlessInfo = [] ∧
    ∀ fallback : List Char,
      applyTemplate "\x7bmerchant\x7d".data merchantlessInfo = fallback →
        fallback = [] := by
  refine ⟨by decide, fun fb h => ?_⟩
  rw [← h]
  decide

/-- Closed instance of `spec_template_segment_rendering` on a concrete
segment list with repeated and unrecognized placeholders. -/
theorem spec_template_segment_rendering_witness :
    applyTemplate (flattenSegs
        [Seg.ph "date".data, Seg.lit "_".data, Seg.ph "merchant".data,
         Seg.lit "_".data, Seg.ph "amount".data, Seg.lit "-".data,
         Seg.ph "foo".data, Seg.ph "date".data])
        { date := "2024-01-05".data, merchant := "Acme".data,
          invoice := "水电费".data, month := "01".data,
          amount := { render := "42.5".data }, currency := "CNY".data }
      = renderSegs
        { date := "2024-01-05".data, merchant := "Acme".data,
          invoice := "水电费".data, month := "01".data,
          amount := { render := "42.5".data }, currency := "CNY".data }
        [Seg.ph "date".data, Seg.lit "_".data, Seg.ph "merchant".data,
         Seg.lit "_".data, Seg.ph "amount".data, Seg.lit "-".data,
         Seg.ph "foo".data, Seg.ph "date".data] :=
  spec_template_segment_rendering _ _ (by decide) (by decide)

theorem isPrefixOf_nil_left (x : List Char) : List.isPrefixOf [] x = true := by
  cases x <;> rfl

theorem isPrefixOf_length : ∀ (a s : List Char), a.isPrefixOf s = true →
    a.length ≤ s.length := by
  intro a
  induction a with
  | nil => intro s _; simp
  | cons x a' ih =>
    intro s h
    cases s with
    | nil => simp [List.isPrefixOf] at h
    | cons z s' =>
      simp only [List.isPrefixOf, Bool.and_eq_true] at h
      simp only [List.length_cons]
      exact Nat.succ_le_succ (ih s' h.2)

theorem isPrefixOf_trans : ∀ (a b s : List Char), a.isPrefixOf b = true →
    b.isPrefixOf s = true → a.isPrefixOf s = true := by
  intro a
  induction a with
  | nil => intro b s _ _; exact isPrefixOf_nil_left s
  | cons x a' ih =>
    intro b s h1 h2
    cases b with
    | nil => simp [List.isPrefixOf] at h1
    | cons y b' =>
      cases s with
      | nil => simp [List.isPrefixOf] at h2
      | cons z s' =>
        simp only [List.isPrefixOf, Bool.and_eq_true, beq_iff_eq] at h1 h2 ⊢
        exact ⟨h1.1.trans h2.1, ih b' s' h1.2 h2.2⟩

theorem isPrefixOf_append_ext : ∀ (a s t : List Char), a.isPrefixOf s = true →
    a.isPrefixOf (s ++ t) = true := by
  intro a
  induction a with
  | nil => intro s t _; exact isPrefixOf_nil_left _
  | cons x a' ih =>
    intro s t h
    cases s with
    | nil => simp [List.isPrefixOf] at h
    | cons z s' =>
      simp only [List.isPrefixOf, Bool.and_eq_true] at h
      rw [List.cons_append]
      simp only [List.isPrefixOf, Bool.and_eq_true]
      exact ⟨h.1, ih s' t h.2⟩

theorem occursIn_nil_pat (t : List Char) : occursIn [] t = true := by
  cases t with
  | nil => rfl
  | cons c r => simp [occursIn, isPrefixOf_nil_left]

theorem occursIn_short : ∀ (p s : List Char), s.length < p.length →
    occursIn p s = false := by
  intro p s
  induction s with
  | nil =>
    intro hlen
    cases p with
    | nil => simp at hlen
    | cons x p' => rfl
  | cons c rest ih =>
    intro hlen
    simp only [List.length_cons] at hlen
    have hpre : p.isPrefixOf (c :: rest) = false := by
      cases hval : p.isPrefixOf (c :: rest) with
      | false => rfl
      | true =>
        have := isPrefixOf_length p (c :: rest) hval
        simp only [List.length_cons] at this
        omega
    simp only [occursIn, hpre, Bool.false_or]
    exact ih (by omega)

theorem occursIn_append_right : ∀ (p s t : List Char), occursIn p s = true →
    occursIn p (s ++ t) = true := by
  intro p s t
  induction s with
  | nil =>
    intro h
    have hp : p = [] := by
      cases p with
      | nil => rfl
      | cons x p' => simp [occursIn, List.isEmpty] at h
    rw [hp, List.nil_append]
    exact occursIn_nil_pat t
  | cons c rest ih =>
    intro h
    simp only [occursIn, Bool.or_eq_true] at h
    rw [List.cons_append]
    simp only [occursIn, Bool.or_eq_true]
    rcases h with h | h
    · exact Or.inl (by rw [← List.cons_append]; exact isPrefixOf_append_ext _ _ t h)
    · exact Or.inr (ih h)

theorem stripGo_fuel :
    ∀ (f1 : Nat) (s : List Char) (f2 : Nat), s.length ≤ f1 → s.length ≤ f2 →
      stripGo f1 s = stripGo f2 s := by
  intro f1
  induction f1 with
  | zero =>
    intro s f2 h1 _
    have hs : s = [] := List.eq_nil_of_length_eq_zero (Nat.le_zero.mp h1)
    subst hs
    cases f2 <;> simp [stripGo]
  | succ a ih =>
    intro s f2 h1 h2
    cases s with
    | nil => cases f2 <;> simp [stripGo]
    | cons c rest =>
      cases f2 with
      | zero => simp at h2
      | succ b =>
        simp only [List.length_cons, Nat.succ_le_succ_iff] at h1 h2
        simp only [stripGo]
        have hJlen : fenceJsonTok.length = 7 := by decide
        have hFlen : fenceTok.length = 3 := by decide
        by_cases hp1 : fenceJsonTok.isPrefixOf (c :: rest) = true
        · rw [if_pos hp1, if_pos hp1]
          have hd : ((c :: rest).drop fenceJsonTok.length).length ≤ rest.length := by
            rw [List.length_drop, hJlen]
            simp only [List.length_cons]
            omega
          exact ih _ _ (le_trans hd h1) (le_trans hd h2)
        · rw [if_neg hp1, if_neg hp1]
          by_cases hp2 : fenceTok.isPrefixOf (c :: rest) = true
          · rw [if_pos hp2, if_pos hp2]
            have hd : ((c :: rest).drop fenceTok.length).length ≤ rest.length := by
              rw [List.length_drop, hFlen]
              simp only [List.length_cons]
              omega
            exact ih _ _ (le_trans hd h1) (le_trans hd h2)
          · rw [if_neg hp2, if_neg hp2]
            exact congrArg (c :: ·) (ih _ _ h1 h2)

theorem stripFences_json (s : List Char) (h : fenceJsonTok.isPrefixOf s = true) :
    stripFences s = stripFences (s.drop fenceJsonTok.length) := by
  cases s with
  | nil => exact absurd h (by decide)
  | cons c rest =>
    show stripGo (rest.length + 1) (c :: rest) = _
    simp only [stripGo]
    rw [if_pos h]
    refine stripGo_fuel rest.length _ _ ?_ (le_refl _)
    rw [List.length_drop, show fenceJsonTok.length = 7 from by decide]
    simp only [List.length_cons]
    omega

theorem stripFences_fence (s : List Char)
    (h1 : fenceJsonTok.isPrefixOf s = false) (h2 : fenceTok.isPrefixOf s = true) :
    stripFences s = stripFences (s.drop fenceTok.length) := by
  cases s with
  | nil => exact absurd h2 (by decide)
  | cons c rest =>
    show stripGo (rest.length + 1) (c :: rest) = _
    simp only [stripGo]
    rw [if_neg (by rw [h1]; exact Bool.false_ne_true), if_pos h2]
    refine stripGo_fuel rest.length _ _ ?_ (le_refl _)
    rw [List.length_drop, show fenceTok.length = 3 from by decide]
    simp only [List.length_cons]
    omega

theorem stripFences_keep {c : Char} {rest : List Char}
    (h1 : fenceJsonTok.isPrefixOf (c :: rest) = false)
    (h2 : fenceTok.isPrefixOf (c :: rest) = false) :
    stripFences (c :: rest) = c :: stripFences rest := by
  show stripGo (rest.length + 1) (c :: rest) = _
  simp only [stripGo]
  rw [if_neg (by rw [h1]; exact Bool.false_ne_true),
    if_neg (by rw [h2]; exact Bool.false_ne_true)]
  exact congrArg (c :: ·) (stripGo_fuel rest.length _ _ (le_refl _) (le_refl _))

theorem strip_fenceJson_front (X : List Char) :
    stripFences (fenceJsonTok ++ X) = stripFences X := by
  rw [stripFences_json (fenceJsonTok ++ X)
    (isPrefixOf_append_self fenceJsonTok X), List.drop_left]

theorem strip_noFence : ∀ (s : List Char), occursIn fenceTok s = false →
    stripFences s = s := by
  intro s
  induction s with
  | nil => intro _; rfl
  | cons c rest ih =>
    intro h
    simp only [occursIn, Bool.or_eq_false_iff] at h
    have h1 : fenceJsonTok.isPrefixOf (c :: rest) = false := by
      cases hval : fenceJsonTok.isPrefixOf (c :: rest) with
      | false => rfl
      | true =>
        exact absurd (isPrefixOf_trans fenceTok fenceJsonTok _ (by decide) hval)
          (by rw [h.1]; exact Bool.false_ne_true)
    rw [stripFences_keep h1 h.1, ih h.2]

theorem strip_ws_append : ∀ (w X : List Char), (∀ c ∈ w, wsChar c = true) →
    stripFences (w ++ X) = w ++ stripFences X := by
  intro w
  induction w with
  | nil => intro X _; simp
  | cons a w' ih =>
    intro X hw
    have ha : wsChar a = true := hw a (List.mem_cons_self a w')
    have hab : a ≠ btick := by
      intro hcontra
      rw [hcontra] at ha
      exact absurd ha (by decide)
    have h2 : fenceTok.isPrefixOf (a :: (w' ++ X)) = false := by
      rw [show fenceTok = btick :: "``".data from by decide]
      simp only [List.isPrefixOf, Bool.and_eq_false_iff]
      left
      simp only [beq_eq_false_iff_ne]
      exact fun hc => hab hc.symm
    have h1 : fenceJsonTok.isPrefixOf (a :: (w' ++ X)) = false := by
      cases hval : fenceJsonTok.isPrefixOf (a :: (w' ++ X)) with
      | false => rfl
      | true =>
        exact absurd (isPrefixOf_trans fenceTok fenceJsonTok _ (by decide) hval)
          (by rw [h2]; exact Bool.false_ne_true)
    rw [List.cons_append, stripFences_keep h1 h2,
      ih X (fun c hm => hw c (List.mem_cons_of_mem a hm))]
    rfl

theorem btick_pad : ∀ (a y t : List Char), (∀ ch ∈ a, ch = btick) →
    t.length ≤ 2 → a.isPrefixOf (y ++ t) = true →
    a.isPrefixOf (y ++ [btick, btick]) = true := by
  intro a
  induction a with
  | nil => intro y t _ _ _; exact isPrefixOf_nil_left _
  | cons x a' ih =>
    intro y t hall hlen hpre
    cases y with
    | cons b y' =>
      rw [List.cons_append] at hpre
      simp only [List.isPrefixOf, Bool.and_eq_true] at hpre
      rw [List.cons_append]
      simp only [List.isPrefixOf, Bool.and_eq_true]
      exact ⟨hpre.1, ih y' t (fun ch hm => hall ch (List.mem_cons_of_mem x hm))
        hlen hpre.2⟩
    | nil =>
      rw [List.nil_append] at hpre ⊢
      have hlen2 := isPrefixOf_length _ _ hpre
      have hx : x = btick := hall x (List.mem_cons_self x a')
      cases a' with
      | nil =>
        rw [hx]
        decide
      | cons x2 a'' =>
        have hx2 : x2 = btick := hall x2 (List.mem_cons_of_mem x
          (List.mem_cons_self x2 a''))
        cases a'' with
        | nil =>
          rw [hx, hx2]
          decide
        | cons x3 a3 =>
          simp only [List.length_cons] at hlen2
          omega

theorem isPrefixOf_of_take : ∀ (a : List Char) (k : Nat) (X : List Char),
    a.length ≤ k → a.isPrefixOf X = true → a.isPrefixOf (X.take k) = true := by
  intro a
  induction a with
  | nil => intro k X _ _; exact isPrefixOf_nil_left _
  | cons x a' ih =>
    intro k X hlen h
    cases X with
    | nil => simp [List.isPrefixOf] at h
    | cons z X' =>
      simp only [List.isPrefixOf, Bool.and_eq_true] at h
      cases k with
      | zero => simp only [List.length_cons] at hlen; omega
      | succ k' =>
        rw [List.take_succ_cons]
        simp only [List.isPrefixOf, Bool.and_eq_true]
        refine ⟨h.1, ih k' X' ?_ h.2⟩
        simp only [List.length_cons] at hlen
        omega

theorem isPrefixOf_append_take : ∀ (a y X : List Char) (k : Nat),
    a.length ≤ y.length + k → a.isPrefixOf (y ++ X) = true →
    a.isPrefixOf (y ++ X.take k) = true := by
  intro a y
  induction y generalizing a with
  | nil =>
    intro X k hlen h
    rw [List.nil_append] at h ⊢
    exact isPrefixOf_of_take a k X (by simpa using hlen) h
  | cons b y' ih =>
    intro X k hlen h
    cases a with
    | nil => exact isPrefixOf_nil_left _
    | cons x a' =>
      rw [List.cons_append] at h ⊢
      simp only [List.isPrefixOf, Bool.and_eq_true] at h ⊢
      refine ⟨h.1, ih a' X k ?_ h.2⟩
      simp only [List.length_cons] at hlen
      omega

theorem occursIn_pad_two : ∀ (pl t : List Char), t.length ≤ 2 →
    occursIn fenceTok (pl ++ [btick, btick]) = false →
    occursIn fenceTok (pl ++ t) = false := by
  intro pl t hlen
  induction pl with
  | nil =>
    intro _
    rw [List.nil_append]
    exact occursIn_short fenceTok t
      (by rw [show fenceTok.length = 3 from by decide]; omega)
  | cons c p' ih =>
    intro h
    rw [List.cons_append] at h
    simp only [occursIn, Bool.or_eq_false_iff] at h
    rw [List.cons_append]
    simp only [occursIn, Bool.or_eq_false_iff]
    refine ⟨?_, ih h.2⟩
    cases hval : fenceTok.isPrefixOf (c :: (p' ++ t)) with
    | false => rfl
    | true =>
      have := btick_pad fenceTok (c :: p') t (by decide) hlen
        (by rw [List.cons_append]; exact hval)
      rw [List.cons_append] at this
      exact absurd this (by rw [h.1]; exact Bool.false_ne_true)

theorem strip_clean_append : ∀ (pl X : List Char),
    occursIn fenceTok (pl ++ X.take 2) = false →
    stripFences (pl ++ X) = pl ++ stripFences X := by
  intro pl
  induction pl with
  | nil => intro X _; simp
  | cons c p' ih =>
    intro X h
    rw [List.cons_append] at h
    simp only [occursIn, Bool.or_eq_false_iff] at h
    have h2 : fenceTok.isPrefixOf (c :: (p' ++ X)) = false := by
      cases hval : fenceTok.isPrefixOf (c :: (p' ++ X)) with
      | false => rfl
      | true =>
        have hbound : fenceTok.length ≤ (c :: p').length + 2 := by
          rw [show fenceTok.length = 3 from by decide]
          simp only [List.length_cons]
          omega
        have := isPrefixOf_append_take fenceTok (c :: p') X 2 hbound
          (by rw [List.cons_append]; exact hval)
        rw [List.cons_append] at this
        exact absurd this (by rw [h.1]; exact Bool.false_ne_true)
    have h1 : fenceJsonTok.isPrefixOf (c :: (p' ++ X)) = false := by
      cases hval : fenceJsonTok.isPrefixOf (c :: (p' ++ X)) with
      | false => rfl
      | true =>
        exact absurd (isPrefixOf_trans fenceTok fenceJsonTok _ (by decide) hval)
          (by rw [h2]; exact Bool.false_ne_true)
    rw [List.cons_append, stripFences_keep h1 h2, ih X h.2]
    rfl

theorem dropWhile_all_append (q : Char → Bool) :
    ∀ (w x : List Char), (∀ c ∈ w, q c = true) →
      (w ++ x).dropWhile q = x.dropWhile q := by
  intro w x
  induction w with
  | nil => intro _; rfl
  | cons a w' ih =>
    intro hw
    rw [List.cons_append, List.dropWhile_cons,
      if_pos (hw a (List.mem_cons_self a w'))]
    exact ih (fun c hm => hw c (List.mem_cons_of_mem a hm))

theorem dropWhile_all_nil (q : Char → Bool) (w : List Char)
    (hw : ∀ c ∈ w, q c = true) : w.dropWhile q = [] := by
  have := dropWhile_all_append q w [] hw
  rwa [List.append_nil] at this

theorem dropTail_pad (w2 : List Char) (hw2 : ∀ c ∈ w2, wsChar c = true) :
    ∀ pl : List Char,
      (((pl ++ w2).dropWhile wsChar).reverse).dropWhile wsChar
        = ((pl.dropWhile wsChar).reverse).dropWhile wsChar := by
  intro pl
  induction pl with
  | nil =>
    rw [List.nil_append, dropWhile_all_nil wsChar w2 hw2]
    rfl
  | cons c pl' ih =>
    by_cases hc : wsChar c = true
    · rw [List.cons_append, List.dropWhile_cons, if_pos hc,
        List.dropWhile_cons, if_pos hc]
      exact ih
    · rw [List.cons_append, List.dropWhile_cons, if_neg hc,
        List.dropWhile_cons, if_neg hc]
      rw [List.reverse_cons, List.reverse_cons, List.reverse_append,
        List.append_assoc,
        dropWhile_all_append wsChar w2.reverse _
          (fun x hm => hw2 x (List.mem_reverse.mp hm))]

theorem trimWsPad (w1 w2 pl : List Char) (hw1 : ∀ c ∈ w1, wsChar c = true)
    (hw2 : ∀ c ∈ w2, wsChar c = true) :
    trimL (w1 ++ (pl ++ w2)) = trimL pl := by
  unfold trimL
  rw [dropWhile_all_append wsChar w1 _ hw1, dropTail_pad w2 hw2 pl]

/-- C8.  A provider payload wrapped in `` ```json … ``` `` code fences,
with whitespace separators, is stripped of the fence markers and the
surrounding whitespace before parsing, and hands the JSON parser exactly
the same text as the unwrapped payload does — so both parse to the same
extracted record, for every parser.  (The payload is assumed free of
triple-backtick runs, the shape every JSON object response has.) -/
theorem spec_fenced_payload_parse :
    ∀ {α : Type} (jparse : List Char → α) (w1 w2 payload : List Char),
      (∀ c ∈ w1, wsChar c = true) → (∀ c ∈ w2, wsChar c = true) →
      occursIn fenceTok (payload ++ [btick, btick]) = false →
      parseSafeJSON jparse (fenceJsonTok ++ w1 ++ payload ++ w2 ++ fenceTok)
        = parseSafeJSON jparse payload := by
  intro α jparse w1 w2 payload hw1 hw2 hpl
  unfold parseSafeJSON
  refine congrArg jparse ?_
  have htake : ((w2 ++ fenceTok).take 2).length ≤ 2 := by
    rw [List.length_take]
    omega
  have hclean : occursIn fenceTok (payload ++ (w2 ++ fenceTok).take 2) = false :=
    occursIn_pad_two payload _ htake hpl
  have hponly : occursIn fenceTok payload = false := by
    cases hval : occursIn fenceTok payload with
    | false => rfl
    | true =>
      exact absurd (occursIn_append_right fenceTok payload [btick, btick] hval)
        (by rw [hpl]; exact Bool.false_ne_true)
  have hL : stripFences (fenceJsonTok ++ w1 ++ payload ++ w2 ++ fenceTok)
      = w1 ++ (payload ++ w2) := by
    rw [List.append_assoc, List.append_assoc, List.append_assoc,
      strip_fenceJson_front, strip_ws_append w1 _ hw1,
      strip_clean_append payload _ hclean, strip_ws_append w2 _ hw2,
      show stripFences fenceTok = [] from by decide, List.append_nil]
  rw [hL, strip_noFence payload hponly, trimWsPad w1 w2 payload hw1 hw2]

/-- Closed instance of `spec_fenced_payload_parse` on a concrete fenced
JSON object. -/
theorem spec_fenced_payload_parse_witness :
    parseSafeJSON (fun s => s)
        (fenceJsonTok ++ "\n".data ++ "\x7b\"amount\": 42.5\x7d".data
          ++ "\n".data ++ fenceTok)
      = parseSafeJSON (fun s => s) "\x7b\"amount\": 42.5\x7d".data :=
  spec_fenced_payload_parse (fun s => s) "\n".data "\n".data
    "\x7b\"amount\": 42.5\x7d".data (by decide) (by decide) (by decide)
